import Mathlib

/-!
Verification of the tito custom version tagger (src/.tito/customtagger.py).

The Python source defines a subclass of the tito VersionTagger with two
methods:

  def update_configure_ac(self, new_version):        (leading underscore)
      configure_ac = os.path.join(self.full_project_dir, "configure.ac")
      with open(configure_ac, "r") as f:
          content = re.sub(pattern, template, f.read())
      with open(configure_ac, "w") as f:
          f.write(content)
      run_command("git add " + configure_ac)

  def update_package_metadata(self, new_version):    (leading underscore)
      self.update_configure_ac(new_version)
      super().update_package_metadata(new_version)

where pattern is the raw regex  (AC_INIT.*?,\s+)\[.*?\]  and template is
\1[V] with V = new_version.split("-")[0].

The embedding below models this regex substitution exactly, with the
Python semantics of re.sub without flags: matches are scanned leftmost
and replaced globally (every non overlapping match, not just the first);
the dot matches any character except a newline; \s matches whitespace
including newlines (modelled for the ASCII whitespace characters, which
is what the Python class covers on ASCII configure.ac files); the lazy
star tries shorter extents first; the greedy \s+ tries longer extents
first. The replacement template splices group 1 verbatim followed by the
bracketed computed version; the template expansion of re.sub is modelled
as a literal splice, which is faithful for every version string that
contains no backslash (a backslash escape inside the version would be
re-expanded by re.sub, an irrelevant case for version strings).

Text is modelled as List Char. The filesystem and the side effects of
the two methods (the write back, the git add invocation, and the call
into the inherited tito behaviour) are modelled by an explicit world
state with an event trace.
-/

/-- The ASCII whitespace characters matched by the regex class \s
(space, tab, newline, carriage return, vertical tab, form feed). -/
def isSpc (c : Char) : Bool :=
  c = ' ' || c = '\t' || c = '\n' || c = '\r' || c = '\x0b' || c = '\x0c'

/-- Python str.split with a one character separator: splits on every
occurrence of the separator, keeping empty pieces, and never returns an
empty list of pieces. Mirrors new_version.split("-") in the source. -/
def pySplit (sep : Char) : List Char → List (List Char)
  | [] => [[]]
  | c :: cs =>
    if c = sep then [] :: pySplit sep cs
    else
      match pySplit sep cs with
      | h :: t => (c :: h) :: t
      | [] => [[c]]

/-- The computed replacement version: new_version.split("-")[0] from the
source, the piece of the version string before the first dash. -/
def versionBase (v : List Char) : List Char :=
  (pySplit '-' v).headD []

/-- The literal token AC_INIT that anchors the regex. -/
def acLit : List Char := ['A', 'C', '_', 'I', 'N', 'I', 'T']

/-- Checks that the first list is an initial segment of the second. -/
def isPrefCheck : List Char → List Char → Bool
  | [], _ => true
  | _ :: _, [] => false
  | p :: ps, c :: cs => p = c && isPrefCheck ps cs

/-- True when the text starts with the literal AC_INIT. -/
def hasAc (l : List Char) : Bool := isPrefCheck acLit l

/-- The lazy bracket body of the regex: after the opening bracket,
\[.*?\] takes the characters up to the first closing bracket, none of
which may be a newline (the dot does not match newlines), and fails when
a newline or the end of the text arrives first. Returns the body and
the text after the closing bracket. -/
def matchBr : List Char → Option (List Char × List Char)
  | [] => none
  | c :: cs =>
    if c = ']' then some ([], cs)
    else if c = '\n' then none
    else (matchBr cs).map (fun p => (c :: p.1, p.2))

/-- The part of the regex after the comma: \s+\[.*?\] with greedy \s+.
Only the maximal whitespace run can be followed by the opening bracket
(every shorter extent is followed by another whitespace character), so
the greedy backtracking collapses to: take the maximal whitespace run,
require it nonempty, require an opening bracket, then the lazy bracket
body. Returns the whitespace run, the bracket body and the rest. -/
def matchWsBr (l : List Char) : Option (List Char × List Char × List Char) :=
  if (l.takeWhile isSpc).isEmpty then none
  else
    match l.dropWhile isSpc with
    | [] => none
    | c :: cs =>
      if c = '[' then (matchBr cs).map (fun p => (l.takeWhile isSpc, p.1, p.2))
      else none

/-- The lazy middle of the regex: after the literal AC_INIT, the lazy
.*? tries the continuation ,\s+\[.*?\] at each position, shortest
first, and each character it swallows must not be a newline. Returns
the swallowed middle, the whitespace run, the bracket body and the rest. -/
def matchMid : List Char → Option (List Char × List Char × List Char × List Char)
  | [] => none
  | c :: cs =>
    match (if c = ',' then matchWsBr cs else none) with
    | some (w, t, r) => some ([], w, t, r)
    | none =>
      if c = '\n' then none
      else (matchMid cs).map (fun q => (c :: q.1, q.2.1, q.2.2.1, q.2.2.2))

/-- One attempt of the whole regex (AC_INIT.*?,\s+)\[.*?\] at the head
of the text. On success returns group 1 (the literal, the middle, the
comma and the whitespace run), the bracket body and the rest of the
text after the match. -/
def tryMatch (l : List Char) : Option (List Char × List Char × List Char) :=
  if isPrefCheck acLit l then
    (matchMid (l.drop 7)).map
      (fun q => (acLit ++ q.1 ++ ',' :: q.2.1, q.2.2.1, q.2.2.2))
  else none

/-- The global substitution loop of re.sub, fuelled for structural
recursion: scan left to right, at each position attempt the regex; on a
match emit group 1 and the bracketed replacement and continue after the
match, otherwise emit the character and continue one position later.
A fuel of at least the length of the text is always enough because a
match consumes at least eleven characters. -/
def subScanF (r : List Char) : Nat → List Char → List Char
  | _, [] => []
  | 0, l => l
  | f + 1, c :: cs =>
    match tryMatch (c :: cs) with
    | some (g1, _, rest) => g1 ++ '[' :: (r ++ ']' :: subScanF r f rest)
    | none => c :: subScanF r f cs

/-- re.sub of the tagger regex over the whole text, replacing every
match with group 1 followed by the bracketed replacement r. -/
def reSub (r l : List Char) : List Char := subScanF r l.length l

/-- True when the regex matches somewhere in the text. -/
def hasPat : List Char → Bool
  | [] => false
  | c :: cs => (tryMatch (c :: cs)).isSome || hasPat cs

/-- Observable side effects of the tagger: a git add invocation on a
path, or the call into the inherited tito metadata update. -/
inductive TagEvent
  | gitAdd (path : List Char)
  | baseUpdate (version : List Char)
deriving DecidableEq

/-- The world the tagger acts on: the content of configure.ac under the
project directory (none when the file does not exist) and the trace of
side effects performed so far. -/
structure TagWorld where
  fileContent : Option (List Char)
  events : List TagEvent
deriving DecidableEq

/-- The error raised by open when the file is missing. -/
inductive PyErr
  | fileNotFound
deriving DecidableEq

/-- The file name used by the tagger. -/
def cfgName : List Char := ['c', 'o', 'n', 'f', 'i', 'g', 'u', 'r', 'e', '.', 'a', 'c']

/-- os.path.join for a relative file name: an empty directory gives the
file name, a directory already ending in a slash is concatenated as is,
otherwise a slash is inserted. -/
def joinPath (d f : List Char) : List Char :=
  if d = [] then f
  else if d.getLast? = some '/' then d ++ f
  else d ++ '/' :: f

/-- The method update_configure_ac of the source: open configure.ac for
reading (raising the missing file error before any effect when it does
not exist), apply the regex substitution with the computed version,
write the result back, then invoke git add on the path. -/
def updateConfigureAc (projectDir ver : List Char) (w : TagWorld) :
    Option PyErr × TagWorld :=
  match w.fileContent with
  | none => (some PyErr.fileNotFound, w)
  | some content =>
    (none,
      { fileContent := some (reSub (versionBase ver) content),
        events := w.events ++ [TagEvent.gitAdd (joinPath projectDir cfgName)] })

/-- Modelled from the spec: the inherited tito method
update_package_metadata is an external collaborator whose behaviour is
outside this repository; it is modelled as an opaque recorded
invocation carrying the version it receives. -/
def baseUpdatePackageMetadata (ver : List Char) (w : TagWorld) : TagWorld :=
  { w with events := w.events ++ [TagEvent.baseUpdate ver] }

/-- The method update_package_metadata of the source: first the
configure.ac rewrite, then (when no error was raised) the call into the
inherited behaviour with the same version, in that order. -/
def updatePackageMetadata (projectDir ver : List Char) (w : TagWorld) :
    Option PyErr × TagWorld :=
  match updateConfigureAc projectDir ver w with
  | (some e, w') => (some e, w')
  | (none, w') => (none, baseUpdatePackageMetadata ver w')

/-! Basic facts about the split. -/

theorem pySplit_ne_nil (sep : Char) (v : List Char) : pySplit sep v ≠ [] := by
  induction v with
  | nil => simp [pySplit]
  | cons c cs ih =>
    simp only [pySplit]
    by_cases h : c = sep
    · simp [h]
    · simp only [h, if_false]
      cases hs : pySplit sep cs with
      | nil => simp
      | cons a t => simp

theorem versionBase_eq_takeWhile (v : List Char) :
    versionBase v = v.takeWhile (fun c => c != '-') := by
  induction v with
  | nil => simp [versionBase, pySplit]
  | cons c cs ih =>
    simp only [versionBase, pySplit] at *
    by_cases h : c = '-'
    · simp [h, List.takeWhile]
    · simp only [h, if_false]
      cases hs : pySplit '-' cs with
      | nil => exact absurd hs (pySplit_ne_nil '-' cs)
      | cons a t =>
        simp only [hs, List.headD] at ih ⊢
        have hb : (c != '-') = true := by simp [h]
        simp [List.takeWhile, hb, ih]

/-! Scanning helpers for takeWhile and dropWhile. -/

theorem takeWhile_stop {p : Char → Bool} {c : Char} (hc : p c = false)
    (q z : List Char) : (q ++ c :: z).takeWhile p = q.takeWhile p := by
  induction q with
  | nil => simp [List.takeWhile_cons, hc]
  | cons a q' ih =>
    simp only [List.cons_append, List.takeWhile_cons]
    cases p a <;> simp [ih]

theorem dropWhile_stop {p : Char → Bool} {c : Char} (hc : p c = false)
    (q z : List Char) : (q ++ c :: z).dropWhile p = q.dropWhile p ++ c :: z := by
  induction q with
  | nil => simp [List.dropWhile_cons, hc]
  | cons a q' ih =>
    simp only [List.cons_append, List.dropWhile_cons]
    cases p a <;> simp [ih]

theorem takeWhile_all {p : Char → Bool} :
    ∀ {q : List Char}, (∀ a ∈ q, p a = true) → q.takeWhile p = q := by
  intro q
  induction q with
  | nil => simp
  | cons a q' ih =>
    intro h
    rw [List.takeWhile_cons_of_pos (h a (by simp)), ih (fun x hx => h x (by simp [hx]))]

theorem dropWhile_all {p : Char → Bool} :
    ∀ {q : List Char}, (∀ a ∈ q, p a = true) → q.dropWhile p = [] := by
  intro q
  induction q with
  | nil => simp
  | cons a q' ih =>
    intro h
    rw [List.dropWhile_cons_of_pos (h a (by simp)), ih (fun x hx => h x (by simp [hx]))]

/-! Soundness and completeness of the bracket body matcher. -/

theorem matchBr_sound : ∀ {l t r : List Char}, matchBr l = some (t, r) →
    l = t ++ ']' :: r ∧ ∀ c ∈ t, ¬(c = ']') ∧ ¬(c = '\n') := by
  intro l
  induction l with
  | nil => intro t r h; simp [matchBr] at h
  | cons c cs ih =>
    intro t r h
    simp only [matchBr] at h
    by_cases h1 : c = ']'
    · rw [if_pos h1] at h
      simp only [Option.some.injEq, Prod.mk.injEq] at h
      obtain ⟨rfl, rfl⟩ := h
      subst h1
      exact ⟨rfl, by simp⟩
    · rw [if_neg h1] at h
      by_cases h2 : c = '\n'
      · rw [if_pos h2] at h; exact absurd h (by simp)
      · rw [if_neg h2] at h
        rw [Option.map_eq_some'] at h
        obtain ⟨⟨t', r'⟩, hm, hp⟩ := h
        simp only [Prod.mk.injEq] at hp
        obtain ⟨rfl, rfl⟩ := hp
        obtain ⟨hd, hcl⟩ := ih hm
        refine ⟨by simp [hd], ?_⟩
        intro x hx
        rcases List.mem_cons.mp hx with rfl | hx'
        · exact ⟨h1, h2⟩
        · exact hcl x hx'

theorem matchBr_clean : ∀ {t : List Char} (r : List Char),
    (∀ c ∈ t, ¬(c = ']') ∧ ¬(c = '\n')) → matchBr (t ++ ']' :: r) = some (t, r) := by
  intro t
  induction t with
  | nil => intro r _; simp [matchBr]
  | cons c ts ih =>
    intro r h
    have hc := h c (by simp)
    simp only [List.cons_append, matchBr, if_neg hc.1, if_neg hc.2]
    simp only [List.append_eq]
    rw [ih r (fun x hx => h x (by simp [hx]))]
    rfl

/-! Soundness and completeness of the whitespace plus bracket matcher. -/

theorem matchWsBr_sound {l w t r : List Char} (h : matchWsBr l = some (w, t, r)) :
    l = w ++ '[' :: (t ++ ']' :: r) ∧ w ≠ [] ∧ (∀ c ∈ w, isSpc c = true) ∧
      (∀ c ∈ t, ¬(c = ']') ∧ ¬(c = '\n')) := by
  simp only [matchWsBr] at h
  split at h
  · exact absurd h (by simp)
  · rename_i hne
    split at h
    · exact absurd h (by simp)
    · rename_i c cs heq
      have hc : c = '[' := by
        by_contra hc
        rw [if_neg hc] at h
        exact absurd h (by simp)
      subst hc
      rw [if_pos rfl] at h
      rw [Option.map_eq_some'] at h
      obtain ⟨⟨t', r'⟩, hbr, hp⟩ := h
      simp only [Prod.mk.injEq] at hp
      obtain ⟨rfl, rfl, rfl⟩ := hp
      obtain ⟨hd, hcl⟩ := matchBr_sound hbr
      subst hd
      refine ⟨?_, ?_, ?_, hcl⟩
      · conv_lhs => rw [← List.takeWhile_append_dropWhile (p := isSpc) (l := l)]
        rw [heq]
      · intro hnil
        rw [hnil] at hne
        simp at hne
      · intro c hc
        exact List.mem_takeWhile_imp hc

theorem matchWsBr_complete {ws t : List Char} (r : List Char)
    (hw : ws ≠ []) (hws : ∀ c ∈ ws, isSpc c = true)
    (ht : ∀ c ∈ t, ¬(c = ']') ∧ ¬(c = '\n')) :
    matchWsBr (ws ++ '[' :: (t ++ ']' :: r)) = some (ws, t, r) := by
  have hbr : isSpc '[' = false := by decide
  have h1 : (ws ++ '[' :: (t ++ ']' :: r)).takeWhile isSpc = ws := by
    rw [takeWhile_stop hbr, takeWhile_all hws]
  have h2 : (ws ++ '[' :: (t ++ ']' :: r)).dropWhile isSpc = '[' :: (t ++ ']' :: r) := by
    rw [dropWhile_stop hbr, dropWhile_all hws]
    rfl
  have h3 : ws.isEmpty = false := by
    cases ws with
    | nil => exact absurd rfl hw
    | cons a b => rfl
  simp only [matchWsBr, h1, h2, h3, Bool.false_eq_true, if_false]
  rw [matchBr_clean r ht]
  rfl

/-! Soundness and completeness of the lazy middle matcher. -/

theorem matchMid_sound : ∀ {l m w t r : List Char}, matchMid l = some (m, w, t, r) →
    l = m ++ ',' :: (w ++ '[' :: (t ++ ']' :: r)) ∧ (∀ c ∈ m, ¬(c = '\n')) ∧
      w ≠ [] ∧ (∀ c ∈ w, isSpc c = true) ∧ (∀ c ∈ t, ¬(c = ']') ∧ ¬(c = '\n')) := by
  intro l
  induction l with
  | nil => intro m w t r h; simp [matchMid] at h
  | cons c cs ih =>
    intro m w t r h
    simp only [matchMid] at h
    split at h
    · rename_i w' t' r' hprobe
      simp only [Option.some.injEq, Prod.mk.injEq] at h
      obtain ⟨rfl, rfl, rfl, rfl⟩ := h
      by_cases hc : c = ','
      · rw [if_pos hc] at hprobe
        obtain ⟨hd, hne, hsp, hcl⟩ := matchWsBr_sound hprobe
        subst hd
        subst hc
        exact ⟨rfl, by simp, hne, hsp, hcl⟩
      · rw [if_neg hc] at hprobe
        exact absurd hprobe (by simp)
    · by_cases h2 : c = '\n'
      · rw [if_pos h2] at h
        exact absurd h (by simp)
      · rw [if_neg h2] at h
        rw [Option.map_eq_some'] at h
        obtain ⟨⟨m', w', t', r'⟩, hm, hp⟩ := h
        simp only [Prod.mk.injEq] at hp
        obtain ⟨rfl, rfl, rfl, rfl⟩ := hp
        obtain ⟨hd, hnl, hne, hsp, hcl⟩ := ih hm
        refine ⟨by simp [hd], ?_, hne, hsp, hcl⟩
        intro x hx
        rcases List.mem_cons.mp hx with rfl | hx'
        · exact h2
        · exact hnl x hx'

theorem matchMid_complete : ∀ {m : List Char} {ws t : List Char} (r : List Char),
    (∀ c ∈ m, ¬(c = ',') ∧ ¬(c = '\n')) → ws ≠ [] → (∀ c ∈ ws, isSpc c = true) →
    (∀ c ∈ t, ¬(c = ']') ∧ ¬(c = '\n')) →
    matchMid (m ++ ',' :: (ws ++ '[' :: (t ++ ']' :: r))) = some (m, ws, t, r) := by
  intro m
  induction m with
  | nil =>
    intro ws t r _ hw hws ht
    simp [matchMid, matchWsBr_complete r hw hws ht]
  | cons c ms ih =>
    intro ws t r hm hw hws ht
    have hc := hm c (by simp)
    simp only [List.cons_append, matchMid, if_neg hc.1, if_neg hc.2]
    simp only [List.append_eq]
    rw [ih r (fun x hx => hm x (by simp [hx])) hw hws ht]
    rfl

/-! Facts about the literal check. -/

theorem isPrefCheck_iff : ∀ {p l : List Char}, isPrefCheck p l = true ↔ ∃ s, l = p ++ s := by
  intro p
  induction p with
  | nil => intro l; simp [isPrefCheck]
  | cons a ps ih =>
    intro l
    cases l with
    | nil => simp [isPrefCheck]
    | cons c cs =>
      simp only [isPrefCheck, Bool.and_eq_true, decide_eq_true_eq, ih]
      constructor
      · rintro ⟨rfl, s, rfl⟩
        exact ⟨s, rfl⟩
      · rintro ⟨s, hs⟩
        simp only [List.cons_append, List.cons.injEq] at hs
        exact ⟨hs.1.symm, s, hs.2⟩

theorem isPrefCheck_self_append (p s : List Char) : isPrefCheck p (p ++ s) = true :=
  isPrefCheck_iff.mpr ⟨s, rfl⟩

theorem isPrefCheck_append_of_le : ∀ {p e : List Char}, p.length ≤ e.length →
    ∀ s, isPrefCheck p (e ++ s) = isPrefCheck p e := by
  intro p
  induction p with
  | nil => intro e _ s; simp [isPrefCheck]
  | cons a ps ih =>
    intro e he s
    cases e with
    | nil => simp at he
    | cons c cs =>
      simp only [List.length_cons, Nat.succ_le_succ_iff] at he
      simp only [List.cons_append, isPrefCheck, List.append_eq, ih he]

/-! Soundness and completeness of the whole regex attempt. -/

theorem tryMatch_sound {l g1 t rest : List Char} (h : tryMatch l = some (g1, t, rest)) :
    ∃ m w, g1 = acLit ++ (m ++ ',' :: w) ∧
      l = acLit ++ (m ++ ',' :: (w ++ '[' :: (t ++ ']' :: rest))) ∧
      (∀ c ∈ m, ¬(c = '\n')) ∧ w ≠ [] ∧ (∀ c ∈ w, isSpc c = true) ∧
      (∀ c ∈ t, ¬(c = ']') ∧ ¬(c = '\n')) ∧
      matchMid (m ++ ',' :: (w ++ '[' :: (t ++ ']' :: rest))) = some (m, w, t, rest) := by
  simp only [tryMatch] at h
  split at h
  · rename_i hpc
    rw [Option.map_eq_some'] at h
    obtain ⟨⟨m, w, t', r'⟩, hmid, hp⟩ := h
    simp only [Prod.mk.injEq] at hp
    obtain ⟨hg, rfl, rfl⟩ := hp
    obtain ⟨s, rfl⟩ := isPrefCheck_iff.mp hpc
    rw [List.drop_left' (by rfl)] at hmid
    obtain ⟨hd, hnl, hne, hsp, hcl⟩ := matchMid_sound hmid
    subst hd
    exact ⟨m, w, by simp [hg.symm], rfl, hnl, hne, hsp, hcl, hmid⟩
  · exact absurd h (by simp)

theorem tryMatch_complete {m ws t : List Char} (rest : List Char)
    (hm : ∀ c ∈ m, ¬(c = ',') ∧ ¬(c = '\n')) (hw : ws ≠ [])
    (hws : ∀ c ∈ ws, isSpc c = true) (ht : ∀ c ∈ t, ¬(c = ']') ∧ ¬(c = '\n')) :
    tryMatch (acLit ++ (m ++ ',' :: (ws ++ '[' :: (t ++ ']' :: rest)))) =
      some (acLit ++ (m ++ ',' :: ws), t, rest) := by
  simp only [tryMatch, isPrefCheck_self_append, if_pos]
  rw [List.drop_left' (by rfl)]
  rw [matchMid_complete rest hm hw hws ht]
  simp

theorem tryMatch_none_of_not_hasAc {l : List Char} (h : hasAc l = false) :
    tryMatch l = none := by
  simp only [tryMatch, hasAc] at *
  rw [h]
  simp

theorem hasAc_of_tryMatch_some {l : List Char} {v : List Char × List Char × List Char}
    (h : tryMatch l = some v) : hasAc l = true := by
  by_cases hb : hasAc l = true
  · exact hb
  · rw [tryMatch_none_of_not_hasAc (by simpa using hb)] at h
    exact absurd h (by simp)

/-! Decomposition of a successful match and the fuelled scan. -/

theorem tryMatch_decomp {l g1 t rest : List Char} (h : tryMatch l = some (g1, t, rest)) :
    l = g1 ++ '[' :: (t ++ ']' :: rest) ∧ 9 ≤ g1.length := by
  obtain ⟨m, w, hg, hl, _, hw, _, _, _⟩ := tryMatch_sound h
  subst hg
  constructor
  · rw [hl]
    simp
  · have hw1 : 0 < w.length := List.length_pos.mpr hw
    simp only [List.length_append, List.length_cons, acLit, List.length_nil]
    omega

theorem subScanF_nil (r : List Char) : ∀ f, subScanF r f [] = [] := by
  intro f
  cases f <;> rfl

theorem subScanF_fuel (r : List Char) : ∀ f g l, l.length ≤ f → l.length ≤ g →
    subScanF r f l = subScanF r g l := by
  intro f
  induction f with
  | zero =>
    intro g l hf _
    have hnil : l = [] := List.length_eq_zero.mp (Nat.le_zero.mp hf)
    subst hnil
    rw [subScanF_nil, subScanF_nil]
  | succ f' ih =>
    intro g l hf hg
    cases l with
    | nil => rw [subScanF_nil, subScanF_nil]
    | cons c cs =>
      cases g with
      | zero => simp at hg
      | succ g' =>
        simp only [subScanF]
        cases hm : tryMatch (c :: cs) with
        | none =>
          simp only [List.length_cons] at hf hg
          rw [ih g' cs (by omega) (by omega)]
        | some v =>
          obtain ⟨g1, t, rest⟩ := v
          obtain ⟨hd, hlen⟩ := tryMatch_decomp hm
          have hL := congrArg List.length hd
          simp only [List.length_cons, List.length_append] at hL hf hg
          show g1 ++ '[' :: (r ++ ']' :: subScanF r f' rest) =
            g1 ++ '[' :: (r ++ ']' :: subScanF r g' rest)
          rw [ih g' rest (by omega) (by omega)]

theorem reSub_eq_match {l g1 t rest : List Char} (r : List Char)
    (h : tryMatch l = some (g1, t, rest)) :
    reSub r l = g1 ++ '[' :: (r ++ ']' :: reSub r rest) := by
  obtain ⟨hd, hlen⟩ := tryMatch_decomp h
  cases l with
  | nil =>
    have := hasAc_of_tryMatch_some h
    simp [hasAc, acLit, isPrefCheck] at this
  | cons c cs =>
    simp only [reSub, List.length_cons, subScanF, h]
    have hL := congrArg List.length hd
    simp only [List.length_cons, List.length_append] at hL
    rw [subScanF_fuel r cs.length rest.length rest (by omega) (le_refl _)]

theorem reSub_eq_none {c : Char} {cs : List Char} (r : List Char)
    (h : tryMatch (c :: cs) = none) : reSub r (c :: cs) = c :: reSub r cs := by
  simp only [reSub, List.length_cons, subScanF, h]

/-! The substitution is the identity where the regex never matches. -/

theorem reSub_no_pat {r : List Char} : ∀ {l : List Char}, hasPat l = false → reSub r l = l := by
  intro l
  induction l with
  | nil => intro _; rfl
  | cons c cs ih =>
    intro h
    simp only [hasPat, Bool.or_eq_false_iff] at h
    have hnone : tryMatch (c :: cs) = none := by
      cases hm : tryMatch (c :: cs) with
      | none => rfl
      | some v => rw [hm] at h; simp at h
    rw [reSub_eq_none r hnone, ih h.2]

theorem reSub_no_acc {r : List Char} : ∀ {l : List Char},
    (∀ k, k < l.length → hasAc (l.drop k) = false) → reSub r l = l := by
  intro l
  induction l with
  | nil => intro _; rfl
  | cons c cs ih =>
    intro h
    have h0 : hasAc (c :: cs) = false := h 0 (by simp)
    rw [reSub_eq_none r (tryMatch_none_of_not_hasAc h0)]
    refine congrArg (c :: ·) (ih fun k hk => ?_)
    have := h (k + 1) (by simp only [List.length_cons]; omega)
    simpa using this

theorem reSub_skip {r : List Char} : ∀ (pre suf : List Char),
    (∀ k, k < pre.length → hasAc ((pre ++ suf).drop k) = false) →
    reSub r (pre ++ suf) = pre ++ reSub r suf := by
  intro pre
  induction pre with
  | nil => intro suf _; simp
  | cons c pre' ih =>
    intro suf h
    have h0 : hasAc (c :: (pre' ++ suf)) = false := by
      simpa using h 0 (by simp)
    rw [List.cons_append, reSub_eq_none r (tryMatch_none_of_not_hasAc h0)]
    rw [ih suf fun k hk => by
      have := h (k + 1) (by simp only [List.length_cons]; omega)
      simpa using this]
    rfl

/-! Equations for the lazy middle matcher on a head character. -/

theorem matchMid_cons_some {c : Char} {cs w t r : List Char}
    (hc : c = ',') (hp : matchWsBr cs = some (w, t, r)) :
    matchMid (c :: cs) = some ([], w, t, r) := by
  subst hc
  simp [matchMid, hp]

theorem matchMid_cons_none {c : Char} {cs : List Char}
    (hp : (if c = ',' then matchWsBr cs else none) = none) :
    matchMid (c :: cs) =
      if c = '\n' then none
      else (matchMid cs).map (fun q => (c :: q.1, q.2.1, q.2.2.1, q.2.2.2)) := by
  simp only [matchMid, hp]

/-! Transfer lemmas: when the bracket body of a match is replaced by
another body free of closing brackets and newlines, every failing probe
of the regex engine at or before the match keeps failing. These carry
the backtracking analysis of the lazy and greedy pieces. -/

theorem matchBr_transfer {t r2 : List Char}
    (ht : ∀ c ∈ t, ¬(c = ']') ∧ ¬(c = '\n')) :
    ∀ (u rest y : List Char), matchBr (u ++ (t ++ ']' :: rest)) = none →
      matchBr (u ++ (r2 ++ ']' :: y)) = none := by
  intro u
  induction u with
  | nil =>
    intro rest y h
    rw [List.nil_append, matchBr_clean rest ht] at h
    exact absurd h (by simp)
  | cons c u' ih =>
    intro rest y h
    simp only [List.cons_append, matchBr] at h ⊢
    by_cases h1 : c = ']'
    · rw [if_pos h1] at h
      exact absurd h (by simp)
    · rw [if_neg h1] at h ⊢
      by_cases h2 : c = '\n'
      · rw [if_pos h2]
      · rw [if_neg h2] at h ⊢
        rw [Option.map_eq_none'] at h ⊢
        exact ih rest y h

theorem matchWsBr_transfer {t r2 : List Char}
    (ht : ∀ c ∈ t, ¬(c = ']') ∧ ¬(c = '\n')) (q ws rest y : List Char)
    (h : matchWsBr (q ++ ',' :: (ws ++ '[' :: (t ++ ']' :: rest))) = none) :
    matchWsBr (q ++ ',' :: (ws ++ '[' :: (r2 ++ ']' :: y))) = none := by
  have hcm : isSpc ',' = false := by decide
  rw [matchWsBr, takeWhile_stop hcm, dropWhile_stop hcm] at h
  rw [matchWsBr, takeWhile_stop hcm, dropWhile_stop hcm]
  by_cases hE : (q.takeWhile isSpc).isEmpty = true
  · rw [if_pos hE]
  · rw [if_neg hE] at h ⊢
    cases hD : q.dropWhile isSpc with
    | nil =>
      simp only [hD, List.nil_append] at h ⊢
      simp
    | cons d q2 =>
      simp only [hD, List.cons_append] at h ⊢
      by_cases hd : d = '['
      · subst hd
        rw [if_pos rfl] at h ⊢
        rw [Option.map_eq_none'] at h ⊢
        have e1 : q2 ++ ',' :: (ws ++ '[' :: (t ++ ']' :: rest))
            = (q2 ++ ',' :: (ws ++ ['['])) ++ (t ++ ']' :: rest) := by simp
        have e2 : q2 ++ ',' :: (ws ++ '[' :: (r2 ++ ']' :: y))
            = (q2 ++ ',' :: (ws ++ ['['])) ++ (r2 ++ ']' :: y) := by simp
        rw [e1] at h
        rw [e2]
        exact matchBr_transfer ht _ rest y h
      · rw [if_neg hd]

theorem matchMid_transfer {t r2 ws : List Char}
    (ht : ∀ c ∈ t, ¬(c = ']') ∧ ¬(c = '\n'))
    (hw : ws ≠ []) (hws : ∀ c ∈ ws, isSpc c = true) :
    ∀ (q rest y : List Char),
      matchMid (q ++ ',' :: (ws ++ '[' :: (t ++ ']' :: rest))) = none →
      matchMid (q ++ ',' :: (ws ++ '[' :: (r2 ++ ']' :: y))) = none := by
  intro q
  induction q with
  | nil =>
    intro rest y h
    rw [List.nil_append,
      matchMid_cons_some rfl (matchWsBr_complete rest hw hws ht)] at h
    exact absurd h (by simp)
  | cons c q' ih =>
    intro rest y h
    rw [List.cons_append] at h ⊢
    by_cases hc : c = ','
    · subst hc
      cases hp : matchWsBr (q' ++ ',' :: (ws ++ '[' :: (t ++ ']' :: rest))) with
      | some v =>
        obtain ⟨w1, t1, r1⟩ := v
        rw [matchMid_cons_some rfl hp] at h
        exact absurd h (by simp)
      | none =>
        rw [matchMid_cons_none (by rw [if_pos rfl, hp])] at h
        rw [matchMid_cons_none
          (by rw [if_pos rfl, matchWsBr_transfer ht q' ws rest y hp])]
        rw [if_neg (by decide)] at h ⊢
        rw [Option.map_eq_none'] at h ⊢
        exact ih rest y h
    · rw [matchMid_cons_none (by rw [if_neg hc])] at h
      rw [matchMid_cons_none (by rw [if_neg hc])]
      by_cases h2 : c = '\n'
      · rw [if_pos h2]
      · rw [if_neg h2] at h ⊢
        rw [Option.map_eq_none'] at h ⊢
        exact ih rest y h

/-! Transfer of a failed whole attempt, and replay of a successful one. -/

theorem tryMatch_transfer {ws t r2 : List Char}
    (ht : ∀ c ∈ t, ¬(c = ']') ∧ ¬(c = '\n'))
    (hw : ws ≠ []) (hws : ∀ c ∈ ws, isSpc c = true)
    (E rest y : List Char) (hE : 7 ≤ E.length)
    (h : tryMatch (E ++ ',' :: (ws ++ '[' :: (t ++ ']' :: rest))) = none) :
    tryMatch (E ++ ',' :: (ws ++ '[' :: (r2 ++ ']' :: y))) = none := by
  have h7 : acLit.length ≤ E.length := by
    simpa [acLit] using hE
  simp only [tryMatch] at h ⊢
  rw [isPrefCheck_append_of_le h7] at h ⊢
  by_cases hPC : isPrefCheck acLit E = true
  · rw [if_pos hPC] at h ⊢
    rw [Option.map_eq_none'] at h ⊢
    rw [List.drop_append_of_le_length (by simpa [acLit] using h7)] at h ⊢
    exact matchMid_transfer ht hw hws (E.drop 7) rest y h
  · rw [if_neg hPC]

theorem matchMid_replay {ws t rest r2 : List Char}
    (hr : ∀ c ∈ r2, ¬(c = ']') ∧ ¬(c = '\n')) :
    ∀ mid : List Char,
      matchMid (mid ++ ',' :: (ws ++ '[' :: (t ++ ']' :: rest))) = some (mid, ws, t, rest) →
      ∀ y, matchMid (mid ++ ',' :: (ws ++ '[' :: (r2 ++ ']' :: y))) = some (mid, ws, r2, y) := by
  intro mid
  induction mid with
  | nil =>
    intro h y
    obtain ⟨_, _, hwne, hsp, _⟩ := matchMid_sound h
    rw [List.nil_append]
    exact matchMid_cons_some rfl (matchWsBr_complete y hwne hsp hr)
  | cons c mid' ih =>
    intro h y
    obtain ⟨_, hnl, hwne, hsp, ht⟩ := matchMid_sound h
    rw [List.cons_append] at h
    have hprobe : (if c = ',' then
        matchWsBr (mid' ++ ',' :: (ws ++ '[' :: (t ++ ']' :: rest))) else none) = none := by
      cases hp : (if c = ',' then
          matchWsBr (mid' ++ ',' :: (ws ++ '[' :: (t ++ ']' :: rest))) else none) with
      | none => rfl
      | some v =>
        obtain ⟨w1, t1, r1⟩ := v
        have h2 : matchMid (c :: (mid' ++ ',' :: (ws ++ '[' :: (t ++ ']' :: rest))))
            = some ([], w1, t1, r1) := by simp only [matchMid, hp]
        rw [h2] at h
        simp at h
    have hcn : ¬(c = '\n') := hnl c (by simp)
    rw [matchMid_cons_none hprobe, if_neg hcn, Option.map_eq_some'] at h
    obtain ⟨⟨m1, w1, t1, r1⟩, hm1, hp1⟩ := h
    simp only [Prod.mk.injEq, List.cons.injEq] at hp1
    obtain ⟨⟨-, hm1e⟩, hw1, ht1, hr1⟩ := hp1
    rw [hm1e, hw1, ht1, hr1] at hm1
    have hprobe2 : (if c = ',' then
        matchWsBr (mid' ++ ',' :: (ws ++ '[' :: (r2 ++ ']' :: y))) else none) = none := by
      by_cases hc : c = ','
      · rw [if_pos hc]
        have hp1n : matchWsBr (mid' ++ ',' :: (ws ++ '[' :: (t ++ ']' :: rest))) = none := by
          have h3 := hprobe
          rw [if_pos hc] at h3
          exact h3
        exact matchWsBr_transfer ht mid' ws rest y hp1n
      · rw [if_neg hc]
    rw [List.cons_append, matchMid_cons_none hprobe2, if_neg hcn, ih hm1 y]
    rfl

theorem tryMatch_replay {mid ws t rest r2 : List Char}
    (hr : ∀ c ∈ r2, ¬(c = ']') ∧ ¬(c = '\n'))
    (hmid : matchMid (mid ++ ',' :: (ws ++ '[' :: (t ++ ']' :: rest)))
      = some (mid, ws, t, rest)) (y : List Char) :
    tryMatch (acLit ++ (mid ++ ',' :: (ws ++ '[' :: (r2 ++ ']' :: y))))
      = some (acLit ++ (mid ++ ',' :: ws), r2, y) := by
  simp only [tryMatch]
  rw [if_pos (isPrefCheck_self_append acLit _)]
  rw [List.drop_left' (show acLit.length = 7 from rfl)]
  rw [matchMid_replay hr mid hmid y]
  simp

/-! First match decomposition of the substitution output. -/

theorem reSub_decomp (r : List Char) : ∀ n (l : List Char), l.length ≤ n →
    reSub r l = l ∨
    ∃ a mid ws t rest,
      l = a ++ (acLit ++ (mid ++ ',' :: (ws ++ '[' :: (t ++ ']' :: rest)))) ∧
      matchMid (mid ++ ',' :: (ws ++ '[' :: (t ++ ']' :: rest))) = some (mid, ws, t, rest) ∧
      (∀ c ∈ t, ¬(c = ']') ∧ ¬(c = '\n')) ∧ ws ≠ [] ∧ (∀ c ∈ ws, isSpc c = true) ∧
      reSub r l = a ++ (acLit ++ (mid ++ ',' :: (ws ++ '[' :: (r ++ ']' :: reSub r rest)))) := by
  intro n
  induction n with
  | zero =>
    intro l hl
    have hnil : l = [] := List.length_eq_zero.mp (Nat.le_zero.mp hl)
    subst hnil
    exact Or.inl rfl
  | succ n' ih =>
    intro l hl
    cases l with
    | nil => exact Or.inl rfl
    | cons c cs =>
      cases hm : tryMatch (c :: cs) with
      | none =>
        rcases ih cs (by simp only [List.length_cons] at hl; omega) with h1 |
          ⟨a, mid, ws, t, rest, hd, hmid, hts, hwne, hsp, hout⟩
        · exact Or.inl (by rw [reSub_eq_none r hm, h1])
        · refine Or.inr ⟨c :: a, mid, ws, t, rest, ?_, hmid, hts, hwne, hsp, ?_⟩
          · rw [List.cons_append, hd]
          · rw [reSub_eq_none r hm, hout, List.cons_append]
      | some v =>
        obtain ⟨g1, t, rest⟩ := v
        obtain ⟨m, w, hg, hld, hnl, hwne, hsp, hcl, hmid⟩ := tryMatch_sound hm
        refine Or.inr ⟨[], m, w, t, rest, by simpa using hld, hmid, hcl, hwne, hsp, ?_⟩
        rw [reSub_eq_match r hm, hg]
        simp

/-! A failing attempt at the head keeps failing after the tail has been
rewritten: the rewrite only changes bracket bodies of full matches, and
every probe of the failing attempt resolves before the first of them. -/

theorem tryMatch_none_reSub {r : List Char} (c : Char) (cs : List Char)
    (h : tryMatch (c :: cs) = none) : tryMatch (c :: reSub r cs) = none := by
  rcases reSub_decomp r cs.length cs (le_refl _) with h1 |
    ⟨a, mid, ws, t, rest, hd, hmid, hts, hwne, hsp, hout⟩
  · rw [h1]
    exact h
  · rw [hout]
    have e2 : c :: (a ++ (acLit ++ (mid ++ ',' :: (ws ++ '[' :: (r ++ ']' :: reSub r rest)))))
        = ((c :: a) ++ (acLit ++ mid)) ++ ',' :: (ws ++ '[' :: (r ++ ']' :: reSub r rest)) := by
      simp
    rw [e2]
    refine tryMatch_transfer hts hwne hsp _ rest (reSub r rest)
      (by
        have h7 : acLit.length = 7 := rfl
        simp only [List.length_append, List.length_cons, h7]
        omega) ?_
    have e1 : ((c :: a) ++ (acLit ++ mid)) ++ ',' :: (ws ++ '[' :: (t ++ ']' :: rest))
        = c :: (a ++ (acLit ++ (mid ++ ',' :: (ws ++ '[' :: (t ++ ']' :: rest))))) := by
      simp
    rw [e1, ← hd]
    exact h

/-- Idempotence of the substitution, fuelled form: when the replacement
contains no closing bracket and no newline, a second pass reproduces the
output of the first pass unchanged. -/
theorem reSub_idem_aux {r : List Char}
    (hrc : ∀ c ∈ r, ¬(c = ']') ∧ ¬(c = '\n')) : ∀ n (l : List Char), l.length ≤ n →
    reSub r (reSub r l) = reSub r l := by
  intro n
  induction n with
  | zero =>
    intro l hl
    have hnil : l = [] := List.length_eq_zero.mp (Nat.le_zero.mp hl)
    subst hnil
    rfl
  | succ n' ih =>
    intro l hl
    cases l with
    | nil => rfl
    | cons c cs =>
      cases hm : tryMatch (c :: cs) with
      | none =>
        rw [reSub_eq_none r hm,
          reSub_eq_none r (tryMatch_none_reSub c cs hm),
          ih cs (by simp only [List.length_cons] at hl; omega)]
      | some v =>
        obtain ⟨g1, t, rest⟩ := v
        have hrest : rest.length ≤ n' := by
          obtain ⟨hd, hlen⟩ := tryMatch_decomp hm
          have hL := congrArg List.length hd
          simp only [List.length_cons, List.length_append] at hL hl
          omega
        rw [reSub_eq_match r hm]
        obtain ⟨m, w, hg, hld, hnl, hwne, hsp, hcl, hmid⟩ := tryMatch_sound hm
        have e3 : g1 ++ '[' :: (r ++ ']' :: reSub r rest)
            = acLit ++ (m ++ ',' :: (w ++ '[' :: (r ++ ']' :: reSub r rest))) := by
          rw [hg]
          simp
        rw [e3, reSub_eq_match r (tryMatch_replay hrc hmid (reSub r rest)),
          ih rest hrest]
        simp

/-- Idempotence of the substitution for a replacement free of closing
brackets and newlines. -/
theorem reSub_idem {r : List Char}
    (hrc : ∀ c ∈ r, ¬(c = ']') ∧ ¬(c = '\n')) (l : List Char) :
    reSub r (reSub r l) = reSub r l :=
  reSub_idem_aux hrc l.length l (le_refl _)

/-! Claim theorems. -/

/-- C2: for every input version string v, the computed replacement value
that the tagger writes between the brackets, versionBase v, mirroring
new_version.split("-")[0] in the source, equals the piece of v before
the first dash, all of v when no dash occurs. -/
theorem claim2_replacement_version (v : List Char) :
    versionBase v = v.takeWhile (fun c => c != '-') :=
  versionBase_eq_takeWhile v

/-- C6: when configure.ac does not exist under the project directory,
update_configure_ac raises the missing file error from open before
performing any effect: the returned world is the input world, so the
filesystem is unmodified and no staging invocation is recorded. -/
theorem claim6_missing_file (pd v : List Char) (w : TagWorld)
    (h : w.fileContent = none) :
    updateConfigureAc pd v w = (some PyErr.fileNotFound, w) := by
  simp [updateConfigureAc, h]

/-- C6 witness: a concrete world without the file. -/
theorem claim6_missing_file_witness :
    updateConfigureAc ("proj".data) ("1.2.3-1".data)
        { fileContent := none, events := [] }
      = (some PyErr.fileNotFound, { fileContent := none, events := [] }) :=
  claim6_missing_file ("proj".data) ("1.2.3-1".data) _ rfl

/-- C7: update_package_metadata first runs the configure.ac rewrite with
the configured project directory and the new version, recording the git
add of the joined path, and then invokes the inherited tito metadata
update with the same version, in that order; the trace extends the
prior events with exactly the staging event followed by the base
invocation event. -/
theorem claim7_update_order (pd v c : List Char) (w : TagWorld)
    (h : w.fileContent = some c) :
    (updatePackageMetadata pd v w).1 = none ∧
    (updatePackageMetadata pd v w).2.events
      = w.events ++ [TagEvent.gitAdd (joinPath pd cfgName), TagEvent.baseUpdate v] ∧
    (updatePackageMetadata pd v w).2.fileContent = some (reSub (versionBase v) c) := by
  simp [updatePackageMetadata, updateConfigureAc, baseUpdatePackageMetadata, h]

/-- C7 witness: a concrete world with a one macro file. -/
theorem claim7_update_order_witness :
    (updatePackageMetadata ("proj".data) ("1.2.3-1".data)
        { fileContent := some (("AC_INIT([p], [1.0])").data), events := [] }).1 = none ∧
    (updatePackageMetadata ("proj".data) ("1.2.3-1".data)
        { fileContent := some (("AC_INIT([p], [1.0])").data), events := [] }).2.events
      = [] ++ [TagEvent.gitAdd (joinPath ("proj".data) cfgName),
          TagEvent.baseUpdate ("1.2.3-1".data)] ∧
    (updatePackageMetadata ("proj".data) ("1.2.3-1".data)
        { fileContent := some (("AC_INIT([p], [1.0])").data), events := [] }).2.fileContent
      = some (reSub (versionBase ("1.2.3-1".data)) (("AC_INIT([p], [1.0])").data)) :=
  claim7_update_order ("proj".data) ("1.2.3-1".data) (("AC_INIT([p], [1.0])").data) _ rfl

/-- C8: when the file exists but the regex matches nowhere in it, the
substitution is a no-op: no error is raised and the content written
back equals the content read. -/
theorem claim8_no_pattern_noop (pd v c : List Char) (w : TagWorld)
    (hf : w.fileContent = some c) (hnp : hasPat c = false) :
    (updateConfigureAc pd v w).1 = none ∧
    (updateConfigureAc pd v w).2.fileContent = some c := by
  simp [updateConfigureAc, hf, reSub_no_pat hnp]

/-- C8 witness: a file mentioning AC_INIT without the comma bracket
pattern is left unchanged without error. -/
theorem claim8_no_pattern_noop_witness :
    hasPat (("AC_INIT(phpturd)\nAM_MAINTAINER_MODE\n").data) = false ∧
    (updateConfigureAc ("proj".data) ("1.2.3-1".data)
        { fileContent := some (("AC_INIT(phpturd)\nAM_MAINTAINER_MODE\n").data),
          events := [] }).1 = none ∧
    (updateConfigureAc ("proj".data) ("1.2.3-1".data)
        { fileContent := some (("AC_INIT(phpturd)\nAM_MAINTAINER_MODE\n").data),
          events := [] }).2.fileContent
      = some (("AC_INIT(phpturd)\nAM_MAINTAINER_MODE\n").data) :=
  ⟨by decide,
    claim8_no_pattern_noop ("proj".data) ("1.2.3-1".data)
      (("AC_INIT(phpturd)\nAM_MAINTAINER_MODE\n").data) _ rfl (by decide)⟩

/-- C9: with an existing file, one call of update_configure_ac records
exactly one git add invocation, on the join of the project directory
with configure.ac, and raises no error. -/
theorem claim9_staging_once (pd v c : List Char) (w : TagWorld)
    (hf : w.fileContent = some c) :
    (updateConfigureAc pd v w).1 = none ∧
    (updateConfigureAc pd v w).2.events
      = w.events ++ [TagEvent.gitAdd (joinPath pd cfgName)] := by
  simp [updateConfigureAc, hf]

/-- C9 witness: a concrete call records the single staging event. -/
theorem claim9_staging_once_witness :
    (updateConfigureAc ("proj".data) ("1.2.3-1".data)
        { fileContent := some (("AC_INIT([p], [1.0])").data), events := [] }).1 = none ∧
    (updateConfigureAc ("proj".data) ("1.2.3-1".data)
        { fileContent := some (("AC_INIT([p], [1.0])").data), events := [] }).2.events
      = [] ++ [TagEvent.gitAdd (joinPath ("proj".data) cfgName)] :=
  claim9_staging_once ("proj".data) ("1.2.3-1".data) (("AC_INIT([p], [1.0])").data) _ rfl

/-- C10: even when the regex matches nowhere in an existing file, the
operation completes without error, overwrites the file with identical
content, and still records exactly one git add invocation on the path. -/
theorem claim10_absent_pattern_effects (pd v c : List Char) (w : TagWorld)
    (hf : w.fileContent = some c) (hnp : hasPat c = false) :
    updateConfigureAc pd v w
      = (none, TagWorld.mk (some c)
          (w.events ++ [TagEvent.gitAdd (joinPath pd cfgName)])) := by
  simp [updateConfigureAc, hf, reSub_no_pat hnp]

/-- C10 witness: a pattern free file is rewritten identically and staged. -/
theorem claim10_absent_pattern_effects_witness :
    hasPat (("dnl nothing here\n").data) = false ∧
    updateConfigureAc ("proj".data) ("1.2.3-1".data)
        { fileContent := some (("dnl nothing here\n").data), events := [] }
      = (none, TagWorld.mk (some (("dnl nothing here\n").data))
          ([] ++ [TagEvent.gitAdd (joinPath ("proj".data) cfgName)])) :=
  ⟨by decide,
    claim10_absent_pattern_effects ("proj".data) ("1.2.3-1".data)
      (("dnl nothing here\n").data) _ rfl (by decide)⟩

/-- C1: content preservation. For a file whose text decomposes as
arbitrary bytes, then a unique AC_INIT macro of the form
AC_INIT(name, [oldver], rest...), then arbitrary bytes, rewriting with
version v yields the identical text except that the bracketed token
after the first comma of the macro is replaced by the bracketed
computed version. Exactly one AC_INIT is formalised as: the literal
starts at no position inside the leading bytes and at no position
inside the trailing bytes; the macro form is formalised as: the name
part contains no comma and no newline, the whitespace after the comma
is a nonempty whitespace run, and the old version contains no closing
bracket and no newline. -/
theorem claim1_content_preservation
    (pd v pre name ws old post : List Char) (w : TagWorld)
    (hfile : w.fileContent = some (pre ++ (acLit ++ (('(' :: name) ++ ',' ::
      (ws ++ '[' :: (old ++ ']' :: post))))))
    (hpre : ∀ k, k < pre.length → hasAc ((pre ++ (acLit ++ (('(' :: name) ++ ',' ::
      (ws ++ '[' :: (old ++ ']' :: post))))).drop k) = false)
    (hname : ∀ c ∈ name, ¬(c = ',') ∧ ¬(c = '\n'))
    (hws : ws ≠ []) (hsp : ∀ c ∈ ws, isSpc c = true)
    (hold : ∀ c ∈ old, ¬(c = ']') ∧ ¬(c = '\n'))
    (hpost : ∀ k, k < post.length → hasAc (post.drop k) = false) :
    (updateConfigureAc pd v w).2.fileContent
      = some (pre ++ (acLit ++ (('(' :: name) ++ ',' ::
          (ws ++ '[' :: (versionBase v ++ ']' :: post))))) := by
  have hm : ∀ c ∈ ('(' :: name), ¬(c = ',') ∧ ¬(c = '\n') := by
    intro c hc
    rcases List.mem_cons.mp hc with rfl | hc'
    · exact ⟨by decide, by decide⟩
    · exact hname c hc'
  have htm := tryMatch_complete post hm hws hsp hold
  have hscan : reSub (versionBase v)
      (pre ++ (acLit ++ (('(' :: name) ++ ',' :: (ws ++ '[' :: (old ++ ']' :: post)))))
      = pre ++ (acLit ++ (('(' :: name) ++ ',' ::
          (ws ++ '[' :: (versionBase v ++ ']' :: post)))) := by
    rw [reSub_skip pre _ hpre, reSub_eq_match (versionBase v) htm,
      reSub_no_acc hpost]
    simp
  simp only [List.cons_append] at hscan
  simp [updateConfigureAc, hfile, hscan]

/-- C1 witness: a concrete file with header and trailing arguments. -/
theorem claim1_content_preservation_witness :
    (updateConfigureAc ("proj".data) ("1.2.3-1".data)
        { fileContent := some (("dnl x\n".data) ++ (acLit ++ (('(' :: ("[p]".data)) ++ ',' ::
            ((" ".data) ++ '[' :: (("1.0".data) ++ ']' :: (", [m@e])\n".data)))))),
          events := [] }).2.fileContent
      = some (("dnl x\n".data) ++ (acLit ++ (('(' :: ("[p]".data)) ++ ',' ::
          ((" ".data) ++ '[' :: ((versionBase ("1.2.3-1".data)) ++ ']' :: (", [m@e])\n".data)))))) :=
  claim1_content_preservation ("proj".data) ("1.2.3-1".data) ("dnl x\n".data)
    ("[p]".data) (" ".data) ("1.0".data) (", [m@e])\n".data) _ rfl
    (by decide) (by decide) (by decide) (by decide) (by decide) (by decide)

/-- C3 counterexample: the claim says only the first AC_INIT occurrence
is rewritten and later ones are left unchanged; on a file with two
macros the code rewrites both, because re.sub without a count replaces
every non overlapping match. The second bracketed value 2 becomes 9. -/
theorem claim3_counterexample :
    (updateConfigureAc ("proj".data) ("9".data)
        { fileContent := some (("AC_INIT(a, [1]) AC_INIT(b, [2])").data),
          events := [] }).2.fileContent
      = some (("AC_INIT(a, [9]) AC_INIT(b, [9])").data) ∧
    some (("AC_INIT(a, [9]) AC_INIT(b, [9])").data)
      ≠ some (("AC_INIT(a, [9]) AC_INIT(b, [2])").data) := by
  constructor
  · decide
  · decide

/-- C3 amended: every occurrence of the pattern is rewritten, not only
the first: for a file with two AC_INIT macros in the macro form, with
the literal occurring nowhere outside the two macro heads, both
bracketed versions are replaced by the computed version and everything
else is preserved. -/
theorem claim3_rewrites_all_occurrences
    (pd v pre name1 ws1 old1 sep name2 ws2 old2 post : List Char) (w : TagWorld)
    (hfile : w.fileContent = some (pre ++ (acLit ++ (('(' :: name1) ++ ',' ::
      (ws1 ++ '[' :: (old1 ++ ']' :: (sep ++ (acLit ++ (('(' :: name2) ++ ',' ::
        (ws2 ++ '[' :: (old2 ++ ']' :: post)))))))))))
    (hpre : ∀ k, k < pre.length → hasAc ((pre ++ (acLit ++ (('(' :: name1) ++ ',' ::
      (ws1 ++ '[' :: (old1 ++ ']' :: (sep ++ (acLit ++ (('(' :: name2) ++ ',' ::
        (ws2 ++ '[' :: (old2 ++ ']' :: post)))))))))).drop k) = false)
    (hname1 : ∀ c ∈ name1, ¬(c = ',') ∧ ¬(c = '\n'))
    (hws1 : ws1 ≠ []) (hsp1 : ∀ c ∈ ws1, isSpc c = true)
    (hold1 : ∀ c ∈ old1, ¬(c = ']') ∧ ¬(c = '\n'))
    (hsep : ∀ k, k < sep.length → hasAc ((sep ++ (acLit ++ (('(' :: name2) ++ ',' ::
      (ws2 ++ '[' :: (old2 ++ ']' :: post))))).drop k) = false)
    (hname2 : ∀ c ∈ name2, ¬(c = ',') ∧ ¬(c = '\n'))
    (hws2 : ws2 ≠ []) (hsp2 : ∀ c ∈ ws2, isSpc c = true)
    (hold2 : ∀ c ∈ old2, ¬(c = ']') ∧ ¬(c = '\n'))
    (hpost : ∀ k, k < post.length → hasAc (post.drop k) = false) :
    (updateConfigureAc pd v w).2.fileContent
      = some (pre ++ (acLit ++ (('(' :: name1) ++ ',' ::
          (ws1 ++ '[' :: (versionBase v ++ ']' :: (sep ++ (acLit ++ (('(' :: name2) ++ ',' ::
            (ws2 ++ '[' :: (versionBase v ++ ']' :: post)))))))))) := by
  have hm1 : ∀ c ∈ ('(' :: name1), ¬(c = ',') ∧ ¬(c = '\n') := by
    intro c hc
    rcases List.mem_cons.mp hc with rfl | hc'
    · exact ⟨by decide, by decide⟩
    · exact hname1 c hc'
  have hm2 : ∀ c ∈ ('(' :: name2), ¬(c = ',') ∧ ¬(c = '\n') := by
    intro c hc
    rcases List.mem_cons.mp hc with rfl | hc'
    · exact ⟨by decide, by decide⟩
    · exact hname2 c hc'
  have htm2 := tryMatch_complete post hm2 hws2 hsp2 hold2
  have htm1 := tryMatch_complete
    (sep ++ (acLit ++ (('(' :: name2) ++ ',' :: (ws2 ++ '[' :: (old2 ++ ']' :: post)))))
    hm1 hws1 hsp1 hold1
  have hscan : reSub (versionBase v)
      (pre ++ (acLit ++ (('(' :: name1) ++ ',' :: (ws1 ++ '[' :: (old1 ++ ']' ::
        (sep ++ (acLit ++ (('(' :: name2) ++ ',' ::
          (ws2 ++ '[' :: (old2 ++ ']' :: post))))))))))
      = pre ++ (acLit ++ (('(' :: name1) ++ ',' ::
          (ws1 ++ '[' :: (versionBase v ++ ']' :: (sep ++ (acLit ++ (('(' :: name2) ++ ',' ::
            (ws2 ++ '[' :: (versionBase v ++ ']' :: post))))))))) := by
    rw [reSub_skip pre _ hpre, reSub_eq_match (versionBase v) htm1,
      reSub_skip sep _ hsep, reSub_eq_match (versionBase v) htm2,
      reSub_no_acc hpost]
    simp
  simp only [List.cons_append] at hscan
  simp [updateConfigureAc, hfile, hscan]

/-- C3 amended witness: a concrete two macro file has both versions
replaced. -/
theorem claim3_rewrites_all_occurrences_witness :
    (updateConfigureAc ("proj".data) ("9-1".data)
        { fileContent := some (("".data) ++ (acLit ++ (('(' :: ("a".data)) ++ ',' :: ((" ".data) ++ '[' :: (("1".data) ++ ']' :: ((") ".data) ++ (acLit ++ (('(' :: ("b".data)) ++ ',' :: ((" ".data) ++ '[' :: (("2".data) ++ ']' :: (")".data))))))))))),
          events := [] }).2.fileContent
      = some (("".data) ++ (acLit ++ (('(' :: ("a".data)) ++ ',' :: ((" ".data) ++ '[' :: ((versionBase ("9-1".data)) ++ ']' :: ((") ".data) ++ (acLit ++ (('(' :: ("b".data)) ++ ',' :: ((" ".data) ++ '[' :: ((versionBase ("9-1".data)) ++ ']' :: (")".data))))))))))) :=
  claim3_rewrites_all_occurrences ("proj".data) ("9-1".data) ("".data)
    ("a".data) (" ".data) ("1".data) (") ".data) ("b".data) (" ".data) ("2".data)
    (")".data) _ rfl (by decide) (by decide) (by decide) (by decide) (by decide)
    (by decide) (by decide) (by decide) (by decide) (by decide) (by decide)

/-- C4 counterexample: the claim says a macro split across lines is
always still matched; when the line break sits between AC_INIT( and the
comma, the dot of the regex cannot cross the newline, the pattern does
not match, and the file is left unchanged instead of being rewritten to
the claimed output. -/
theorem claim4_counterexample :
    (updateConfigureAc ("proj".data) ("2.0".data)
        { fileContent := some (("AC_INIT(\nfoo, [1.0])").data),
          events := [] }).2.fileContent
      = some (("AC_INIT(\nfoo, [1.0])").data) ∧
    some (("AC_INIT(\nfoo, [1.0])").data)
      ≠ some (("AC_INIT(\nfoo, [2.0])").data) := by
  constructor
  · decide
  · decide

/-- C4 amended: the macro split across lines is still matched and
rewritten exactly when the line breaks lie inside the whitespace run
between the comma and the bracketed version, which the regex matches
through; a line break between AC_INIT and the comma defeats the match
because the dot does not cross newlines. The theorem covers the
matching direction: a single macro whose whitespace run after the
comma contains a newline is rewritten with everything else preserved. -/
theorem claim4_multiline_after_comma
    (pd v pre name ws old post : List Char) (w : TagWorld)
    (hfile : w.fileContent = some (pre ++ (acLit ++ (('(' :: name) ++ ',' ::
      (ws ++ '[' :: (old ++ ']' :: post))))))
    (hnl : '\n' ∈ ws)
    (hpre : ∀ k, k < pre.length → hasAc ((pre ++ (acLit ++ (('(' :: name) ++ ',' ::
      (ws ++ '[' :: (old ++ ']' :: post))))).drop k) = false)
    (hname : ∀ c ∈ name, ¬(c = ',') ∧ ¬(c = '\n'))
    (hws : ws ≠ []) (hsp : ∀ c ∈ ws, isSpc c = true)
    (hold : ∀ c ∈ old, ¬(c = ']') ∧ ¬(c = '\n'))
    (hpost : ∀ k, k < post.length → hasAc (post.drop k) = false) :
    (updateConfigureAc pd v w).2.fileContent
      = some (pre ++ (acLit ++ (('(' :: name) ++ ',' ::
          (ws ++ '[' :: (versionBase v ++ ']' :: post))))) := by
  have hm : ∀ c ∈ ('(' :: name), ¬(c = ',') ∧ ¬(c = '\n') := by
    intro c hc
    rcases List.mem_cons.mp hc with rfl | hc'
    · exact ⟨by decide, by decide⟩
    · exact hname c hc'
  have htm := tryMatch_complete post hm hws hsp hold
  have hscan : reSub (versionBase v)
      (pre ++ (acLit ++ (('(' :: name) ++ ',' :: (ws ++ '[' :: (old ++ ']' :: post)))))
      = pre ++ (acLit ++ (('(' :: name) ++ ',' ::
          (ws ++ '[' :: (versionBase v ++ ']' :: post)))) := by
    rw [reSub_skip pre _ hpre, reSub_eq_match (versionBase v) htm,
      reSub_no_acc hpost]
    simp
  simp only [List.cons_append] at hscan
  simp [updateConfigureAc, hfile, hscan]

/-- C4 amended witness: a macro whose version argument sits on its own
line after the comma is rewritten. -/
theorem claim4_multiline_after_comma_witness :
    '\n' ∈ ("\n\t".data) ∧
    (updateConfigureAc ("proj".data) ("2.0".data)
        { fileContent := some (("".data) ++ (acLit ++ (('(' :: ("[p]".data)) ++ ',' ::
            (("\n\t".data) ++ '[' :: (("1.0".data) ++ ']' :: (")".data)))))),
          events := [] }).2.fileContent
      = some (("".data) ++ (acLit ++ (('(' :: ("[p]".data)) ++ ',' ::
          (("\n\t".data) ++ '[' :: ((versionBase ("2.0".data)) ++ ']' :: (")".data)))))) :=
  ⟨by decide,
    claim4_multiline_after_comma ("proj".data) ("2.0".data) ("".data) ("[p]".data)
      ("\n\t".data) ("1.0".data) (")".data) _ rfl (by decide) (by decide)
      (by decide) (by decide) (by decide) (by decide) (by decide)⟩

/-- C5 counterexample: the claim quantifies over every version string;
for a version whose part before the first dash contains a closing
bracket, the second application matches the rewritten text differently
and changes the file again, so applying the rewrite twice is not the
same as applying it once. -/
theorem claim5_counterexample :
    (updateConfigureAc ("proj".data) ("1]2-7".data)
        (updateConfigureAc ("proj".data) ("1]2-7".data)
          { fileContent := some (("AC_INIT(a, [0])").data),
            events := [] }).2).2.fileContent
      ≠ (updateConfigureAc ("proj".data) ("1]2-7".data)
          { fileContent := some (("AC_INIT(a, [0])").data),
            events := [] }).2.fileContent := by
  decide

/-- C5 amended: the rewrite is idempotent on the file content for every
file and every version string whose computed part before the first dash
contains no closing bracket and no newline, which covers every sane
version string: the second application matches the already rewritten
value and replaces it with itself. -/
theorem claim5_idempotent_for_clean_versions (pd v c : List Char) (w : TagWorld)
    (hf : w.fileContent = some c)
    (hr : ∀ ch ∈ versionBase v, ¬(ch = ']') ∧ ¬(ch = '\n')) :
    (updateConfigureAc pd v (updateConfigureAc pd v w).2).2.fileContent
      = (updateConfigureAc pd v w).2.fileContent := by
  simp only [updateConfigureAc, hf]
  simp [reSub_idem hr c]

/-- C5 amended witness: a second rewrite with an ordinary version leaves
the once rewritten file unchanged. -/
theorem claim5_idempotent_for_clean_versions_witness :
    (∀ ch ∈ versionBase ("1.2.3-1".data), ¬(ch = ']') ∧ ¬(ch = '\n')) ∧
    (updateConfigureAc ("proj".data) ("1.2.3-1".data)
        (updateConfigureAc ("proj".data) ("1.2.3-1".data)
          { fileContent := some (("AC_INIT([p], [1.0])").data),
            events := [] }).2).2.fileContent
      = (updateConfigureAc ("proj".data) ("1.2.3-1".data)
          { fileContent := some (("AC_INIT([p], [1.0])").data),
            events := [] }).2.fileContent :=
  ⟨by decide,
    claim5_idempotent_for_clean_versions ("proj".data) ("1.2.3-1".data)
      (("AC_INIT([p], [1.0])").data) _ rfl (by decide)⟩
